import Mathlib

/-!
Verification of the multi-frame spectral filtering module
(`DeepFilterNet/df/multiframe.py`).

The torch code operates on dense complex tensors of shape [B, C, T, F]
(batch, channel, time, frequency).  All operations are independent across
the batch and channel axes (every einsum carries them in the `...` part),
so the embedding models one (batch, channel) slice.  A spectrogram slice is
represented frequency-major as a `List (List Cx)`: outer index `f`
(frequency bin), inner index `t` (time frame).  This transposed layout is
an isomorphic re-indexing of the [T, F] slice; it is chosen because the
module's frequency-axis operations (`narrow(-2, 0, num_freqs)` and the
write `spec[..., :num_freqs, :] = ...`) become `take`/`++`/`drop` on the
outer list, while the time-axis operations (padding, `unfold`) act on each
inner list independently.

Complex values are modelled exactly over the rationals (`Cx`), replacing
the floating-point arithmetic of torch by exact field arithmetic.
-/

/-- Exact model of a torch complex scalar: a real/imaginary pair of
rationals. -/
structure Cx where
  re : ℚ
  im : ℚ
deriving DecidableEq, Repr

namespace Cx

theorem ext_iff {a b : Cx} : a = b ↔ a.re = b.re ∧ a.im = b.im := by
  cases a; cases b; simp

@[ext] theorem ext {a b : Cx} (h1 : a.re = b.re) (h2 : a.im = b.im) : a = b :=
  ext_iff.mpr ⟨h1, h2⟩

/-- Embedding of a real scalar into `Cx` (used when torch broadcasts a real
tensor against a complex one). -/
def ofQ (q : ℚ) : Cx := ⟨q, 0⟩

instance : Zero Cx := ⟨⟨0, 0⟩⟩
instance : One Cx := ⟨⟨1, 0⟩⟩
instance : Add Cx := ⟨fun a b => ⟨a.re + b.re, a.im + b.im⟩⟩
instance : Neg Cx := ⟨fun a => ⟨-a.re, -a.im⟩⟩
instance : Mul Cx := ⟨fun a b => ⟨a.re * b.re - a.im * b.im, a.re * b.im + a.im * b.re⟩⟩

@[simp] theorem zero_re : (0 : Cx).re = 0 := rfl
@[simp] theorem zero_im : (0 : Cx).im = 0 := rfl
@[simp] theorem one_re : (1 : Cx).re = 1 := rfl
@[simp] theorem one_im : (1 : Cx).im = 0 := rfl
@[simp] theorem add_re (a b : Cx) : (a + b).re = a.re + b.re := rfl
@[simp] theorem add_im (a b : Cx) : (a + b).im = a.im + b.im := rfl
@[simp] theorem neg_re (a : Cx) : (-a).re = -a.re := rfl
@[simp] theorem neg_im (a : Cx) : (-a).im = -a.im := rfl
@[simp] theorem mul_re (a b : Cx) : (a * b).re = a.re * b.re - a.im * b.im := rfl
@[simp] theorem mul_im (a b : Cx) : (a * b).im = a.re * b.im + a.im * b.re := rfl
@[simp] theorem ofQ_re (q : ℚ) : (ofQ q).re = q := rfl
@[simp] theorem ofQ_im (q : ℚ) : (ofQ q).im = 0 := rfl

instance commRing : CommRing Cx where
  add := (· + ·)
  add_assoc a b c := by ext <;> simp <;> ring
  zero := 0
  zero_add a := by ext <;> simp
  add_zero a := by ext <;> simp
  add_comm a b := by ext <;> simp <;> ring
  mul := (· * ·)
  left_distrib a b c := by ext <;> simp <;> ring
  right_distrib a b c := by ext <;> simp <;> ring
  zero_mul a := by ext <;> simp
  mul_zero a := by ext <;> simp
  mul_assoc a b c := by ext <;> simp <;> ring
  one := 1
  one_mul a := by ext <;> simp
  mul_one a := by ext <;> simp
  neg := (- ·)
  mul_comm a b := by ext <;> simp <;> ring
  neg_add_cancel a := by ext <;> simp
  nsmul := nsmulRec
  zsmul := zsmulRec

/-- Complex conjugation (`Tensor.conj`); on a real-dtype tensor torch's
`conj` is the identity, which is modelled where relevant by not applying
this function. -/
def conj (a : Cx) : Cx := ⟨a.re, -a.im⟩

@[simp] theorem conj_re (a : Cx) : (conj a).re = a.re := rfl
@[simp] theorem conj_im (a : Cx) : (conj a).im = -a.im := rfl

@[simp] theorem conj_zero : conj 0 = 0 := by ext <;> simp

/-- Division of a complex value by a real scalar (torch broadcasts the real
divisor onto both components). -/
def divQ (a : Cx) (s : ℚ) : Cx := ⟨a.re / s, a.im / s⟩

@[simp] theorem divQ_re (a : Cx) (s : ℚ) : (a.divQ s).re = a.re / s := rfl
@[simp] theorem divQ_im (a : Cx) (s : ℚ) : (a.divQ s).im = a.im / s := rfl

theorem divQ_add (a b : Cx) (s : ℚ) : (a + b).divQ s = a.divQ s + b.divQ s := by
  ext <;> simp <;> ring

theorem mul_divQ (a b : Cx) (s : ℚ) : a * b.divQ s = (a * b).divQ s := by
  ext <;> simp <;> ring

@[simp] theorem zero_divQ (s : ℚ) : (0 : Cx).divQ s = 0 := by
  ext <;> simp

end Cx

/-! ## Windowing (`as_windowed`, padding, `unfold`) -/

/--
Model of `as_windowed(x, window_length, step, dim)` restricted to the
windowed axis (the other axes ride along unchanged through the strides).

Source, line 25: `shape[dim] = int(shape[dim] - window_length + step / step)`.
In Python `step / step` is float division and equals `1.0` for every
non-zero `step`, so the window count evaluates to `len - window_length + 1`
for EVERY step (the commented-out line above it and the docstring instead
prescribe `(len - window_length + step) // step`).  Line 36
(`stride[dim] = stride[dim] * step`) makes window `i` start at element
`i * step`, and the inserted stride (lines 27-28) makes each window the
contiguous slice of length `window_length` from there.
-/
def as_windowed {α : Type} (x : List α) (window_length : ℕ) (step : ℕ := 1) :
    List (List α) :=
  (List.range (x.length - window_length + 1)).map
    (fun i => (x.drop (i * step)).take window_length)

/-- Element of a list at a signed index, zero outside the bounds.  Used to
express the content of zero-padded windows. -/
def getZ (x : List Cx) (i : ℤ) : Cx :=
  if 0 ≤ i ∧ i < x.length then x.getD i.toNat 0 else 0

/-- Model of `nn.ConstantPad2d((0, 0, before, after), 0.0)` (and of the
`ConstantPad3d`/`F.pad` variants) on one time column: `before` zero frames
in front of the sequence and `after` zero frames behind it. -/
def padZeros (before after : ℕ) (x : List Cx) : List Cx :=
  List.replicate before 0 ++ x ++ List.replicate after 0

/--
Model of `MultiFrameModule.spec_unfold` on one frequency column of the
spectrogram (the padding and `unfold(2, frame_size, 1)` act only on the
time axis, independently per frequency bin):

* `need_unfold = frame_size > 1` (source line 75): pad the time axis with
  `frame_size - 1 - lookahead` zeros before and `lookahead` zeros after
  (line 74), then take every contiguous window of length `frame_size` with
  step 1 (line 94); `unfold` yields `padded_len - frame_size + 1` windows.
* otherwise: `spec.unsqueeze(-1)` (line 95), a unit frame axis per entry.

`spec_unfold_real` (lines 78-83) pads and unfolds the same time axis and
then permutes the frame axis to the front; per (t, f, n) entry the values
coincide with `spec_unfold`, so both share this model.
-/
def spec_unfold (frame_size lookahead : ℕ) (x : List Cx) : List (List Cx) :=
  if 1 < frame_size then
    (List.range
        ((padZeros (frame_size - 1 - lookahead) lookahead x).length + 1 -
          frame_size)).map
      (fun t =>
        ((padZeros (frame_size - 1 - lookahead) lookahead x).drop t).take
          frame_size)
  else
    x.map (fun v => [v])

/-! ## Grids: one (batch, channel) slice of a [B, C, T, F] tensor,
stored frequency-major (`g.getD f []` is the time column of bin `f`). -/

/-- Entry of a frequency-major slice at frequency `f`, time `t` (zero when
out of range, which the theorems avoid via explicit bounds). -/
def cell (g : List (List Cx)) (f t : ℕ) : Cx := (g.getD f []).getD t 0

/-- Entry of an unfolded slice at frequency `f`, time `t`, frame `n`. -/
def ucell (u : List (List (List Cx))) (f t n : ℕ) : Cx :=
  ((u.getD f []).getD t []).getD n 0

/-- `spec_unfold` applied to a whole slice: every frequency column is
padded and unfolded along time. -/
def spec_unfold_grid (frame_size lookahead : ℕ) (spec : List (List Cx)) :
    List (List (List Cx)) :=
  spec.map (spec_unfold frame_size lookahead)

/-- Applies a per-bin function over every (frequency, time) bin of an
unfolded slice, passing the bin's frame window.  This is the `...`
batching common to all the einsum calls in the module. -/
def binMap (su : List (List (List Cx)))
    (g : ℕ → ℕ → List Cx → Cx) : List (List Cx) :=
  (List.range su.length).map (fun f =>
    (List.range ((su.getD f []).length)).map (fun t =>
      g f t ((su.getD f []).getD t [])))

/-! ## Per-bin einsum kernels -/

/-- `torch.einsum("...n,...n->...", a, b)`: sum of elementwise products
over the shared last axis.  This is the body of
`MultiFrameModule.apply_coefs` (line 107) and of the `denumerator` einsum
of `MfMvdr.forward` (line 275); note neither conjugates its arguments. -/
def dot (a b : List Cx) : Cx := (List.zipWith (fun x y => x * y) a b).sum

/-- `torch.einsum("...nm,...m->...n", m, v)`: matrix-vector product per
bin, first index of `m` indexing rows (used at lines 243 and 274, and in
`solve` at line 99). -/
def matVec (m : List (List Cx)) (v : List Cx) : List Cx :=
  m.map (fun row => dot row v)

/-- `MultiFrameModule.apply_coefs(spec, coefs)` at one bin (line 107). -/
def apply_coefs (spec coefs : List Cx) : Cx := dot spec coefs

/-- `df(spec, coefs)` (lines 126-136), `torch.einsum("...tfn,...ntf->...tf")`:
at each (t, f) bin, the sum over the frame axis `n` of
`spec[t, f, n] * coefs[n, t, f]`.  `coefs` is the list over `n` of
frequency-major slices. -/
def df (spec : List (List (List Cx))) (coefs : List (List (List Cx))) :
    List (List Cx) :=
  binMap spec (fun f t w =>
    ((List.range w.length).map
      (fun n => (w.getD n 0) * cell (coefs.getD n []) f t)).sum)

/-- `df_real(spec, coefs)` (lines 139-157): the same multiply-accumulate
with the complex arithmetic spelled out on the (re, im) component pair,
computing the four real sums separately as the source does. -/
def df_real (spec : List (List (List Cx))) (coefs : List (List (List Cx))) :
    List (List Cx) :=
  binMap spec (fun f t w =>
    Cx.mk
      (((List.range w.length).map
          (fun n => (w.getD n 0).re * (cell (coefs.getD n []) f t).re)).sum -
       ((List.range w.length).map
          (fun n => (w.getD n 0).im * (cell (coefs.getD n []) f t).im)).sum)
      (((List.range w.length).map
          (fun n => (w.getD n 0).re * (cell (coefs.getD n []) f t).im)).sum +
       ((List.range w.length).map
          (fun n => (w.getD n 0).im * (cell (coefs.getD n []) f t).re)).sum))

/-! ## Module configuration (constructors) -/

/-- The immutable per-instance configuration set by
`MultiFrameModule.__init__` (lines 58-76). -/
structure MFcfg where
  num_freqs : ℕ
  frame_size : ℕ
  lookahead : ℕ
  real : Bool
deriving DecidableEq, Repr

/-- `MultiFrameModule.__init__`: stores the configuration and builds the
padding; it performs NO validation (no assert on `lookahead` versus
`frame_size`, and the frequency-bin count of future inputs is not known
here), so construction always succeeds. -/
def MultiFrameModule.init (num_freqs frame_size lookahead : ℕ)
    (real : Bool) : Option MFcfg :=
  some ⟨num_freqs, frame_size, lookahead, real⟩

/-- `DF.__init__` (lines 165-167): the base constructor plus the `conj`
flag; no validation of its own. -/
def DF.init (num_freqs frame_size lookahead : ℕ) (conj : Bool) :
    Option (MFcfg × Bool) :=
  (MultiFrameModule.init num_freqs frame_size lookahead false).map
    (fun m => (m, conj))

/-- `DFreal.__init__` (lines 188-190). -/
def DFreal.init (num_freqs frame_size lookahead : ℕ) (conj : Bool) :
    Option (MFcfg × Bool) :=
  (MultiFrameModule.init num_freqs frame_size lookahead true).map
    (fun m => (m, conj))

/-- `CRM.__init__` (lines 213-215): `assert frame_size == 1 and
lookahead == 0` — the only construction-time validation in the module —
then the base constructor with `frame_size = 1`. -/
def CRM.init (num_freqs : ℕ) (frame_size : ℕ := 1) (lookahead : ℕ := 0) :
    Option MFcfg :=
  if frame_size = 1 ∧ lookahead = 0 then
    MultiFrameModule.init num_freqs 1 0 false
  else none

/-- `MfWf.__init__` (lines 224-226): base constructor only. -/
def MfWf.init (num_freqs frame_size lookahead : ℕ) : Option MFcfg :=
  MultiFrameModule.init num_freqs frame_size lookahead false

/-- `MfMvdr.__init__` (lines 254-257): base constructor plus `eps`. -/
def MfMvdr.init (num_freqs frame_size lookahead : ℕ) (eps : ℚ) :
    Option (MFcfg × ℚ) :=
  (MultiFrameModule.init num_freqs frame_size lookahead false).map
    (fun m => (m, eps))

/-! ## Filter variant forward computations.

The torch forwards end with the in-place write
`spec[..., :num_freqs, :] = filtered` (after an optional
`spec = spec.clone()` in training mode).  The value produced is modelled
out-of-place: the filtered low band followed by the untouched remainder of
the input slice.  The clone / in-place aspect is modelled separately by
`FwdOut` below. -/

/-- `DF.forward` (lines 169-180), value level: unfold, narrow to the first
`num_freqs` bins, optionally conjugate the coefficients, run `df`, and
write the result over the low band. -/
def DF.compute (cfg : MFcfg) (conj : Bool) (spec : List (List Cx))
    (coefs : List (List (List Cx))) : List (List Cx) :=
  let spec_u := spec_unfold_grid cfg.frame_size cfg.lookahead spec
  let spec_f := spec_u.take cfg.num_freqs
  let coefs2 :=
    if conj then coefs.map (fun g => g.map (fun col => col.map Cx.conj))
    else coefs
  df spec_f coefs2 ++ spec.drop cfg.num_freqs

/-- `DFreal.forward` (lines 192-207), value level.  Note: line 204 applies
`coefs.conj()` to a REAL-dtype tensor, where `conj` is the identity, so the
branch has no effect on the values; it is modelled by an identity branch. -/
def DFreal.compute (cfg : MFcfg) (conj : Bool) (spec : List (List Cx))
    (coefs : List (List (List Cx))) : List (List Cx) :=
  let spec_u := spec_unfold_grid cfg.frame_size cfg.lookahead spec
  let spec_f := spec_u.take cfg.num_freqs
  let coefs2 := if conj then coefs else coefs
  df_real spec_f coefs2 ++ spec.drop cfg.num_freqs

/-- `spec.squeeze(-1)`: removes the unit frame axis of an unfolded slice,
keeping entry 0 of each window. -/
def squeezeLast (s : List (List (List Cx))) : List (List Cx) :=
  s.map (fun col => col.map (fun w => w.getD 0 0))

/-- `CRM.forward_impl` (lines 217-218): `spec.squeeze(-1).mul(coefs)` —
an elementwise complex product over ALL bins; nothing narrows to
`num_freqs` and nothing is written back into the input. -/
def CRM.forward_impl (spec : List (List (List Cx)))
    (coefs : List (List Cx)) : List (List Cx) :=
  List.zipWith (List.zipWith (fun a b => a * b)) (squeezeLast spec) coefs

/-- `MfWf.forward` (lines 228-248), value level: per bin the weight is
`w = iRxx · ifc` and the output is `apply_coefs(window, w)`.  `ifc` gives
the length-N vector and `iRxx` the N x N matrix at each (f, t) bin (the
`unflatten`/`view_as_complex` packing of lines 240-241 is modelled by
passing them already unpacked). -/
def MfWf.compute (cfg : MFcfg) (spec : List (List Cx))
    (ifc : List (List (List Cx)))
    (iRxx : List (List (List (List Cx)))) : List (List Cx) :=
  let spec_u := spec_unfold_grid cfg.frame_size cfg.lookahead spec
  let spec_f := spec_u.take cfg.num_freqs
  binMap spec_f (fun f t w =>
    apply_coefs w
      (matVec ((iRxx.getD f []).getD t []) ((ifc.getD f []).getD t [])))
    ++ spec.drop cfg.num_freqs

/-- The per-bin body of `MfMvdr.forward` (lines 274-277):
`numerator = iRnn · ifc`;
`denumerator = einsum("...n,...n->...", ifc.conj(), numerator)`;
`w = numerator / (denumerator.real + eps)`;
output `= apply_coefs(window, w)`. -/
def MfMvdr.forwardBin (eps : ℚ) (w ifc : List Cx)
    (iRnn : List (List Cx)) : Cx :=
  let numerator := matVec iRnn ifc
  let denumerator := dot (ifc.map Cx.conj) numerator
  let weights := numerator.map (fun z => z.divQ (denumerator.re + eps))
  apply_coefs w weights

/-- `MfMvdr.forward` (lines 259-281), value level. -/
def MfMvdr.compute (cfg : MFcfg) (eps : ℚ) (spec : List (List Cx))
    (ifc : List (List (List Cx)))
    (iRnn : List (List (List (List Cx)))) : List (List Cx) :=
  let spec_u := spec_unfold_grid cfg.frame_size cfg.lookahead spec
  let spec_f := spec_u.take cfg.num_freqs
  binMap spec_f (fun f t w =>
    MfMvdr.forwardBin eps w ((ifc.getD f []).getD t [])
      ((iRnn.getD f []).getD t []))
    ++ spec.drop cfg.num_freqs

/-! ## Call effect model (clone versus in-place write).

`DF.forward`, `MfWf.forward` and `MfMvdr.forward` contain
`if self.training: spec = spec.clone()` before the write
`spec[..., :num_freqs, :] = ...`, so in training mode the caller's tensor
is left untouched and a fresh tensor is returned, while in eval mode the
write lands in the caller's tensor and that same tensor is returned.
`DFreal.forward` has no clone at all (lines 192-207).  A call is modelled
by the value returned, the value held by the caller's argument tensor
after the call, and whether the returned tensor is the argument tensor. -/
structure FwdOut where
  ret : List (List Cx)
  arg : List (List Cx)
  retAliasesArg : Bool
deriving DecidableEq, Repr

/-- `DF.forward` with its training-dependent clone (lines 177-179). -/
def DF.forward (training : Bool) (cfg : MFcfg) (conj : Bool)
    (spec : List (List Cx)) (coefs : List (List (List Cx))) : FwdOut :=
  let y := DF.compute cfg conj spec coefs
  if training then ⟨y, spec, false⟩ else ⟨y, y, true⟩

/-- `DFreal.forward`: no clone on any path (lines 199-207); the write at
line 206 always mutates the caller's tensor, which is then returned. -/
def DFreal.forward (_training : Bool) (cfg : MFcfg) (conj : Bool)
    (spec : List (List Cx)) (coefs : List (List (List Cx))) : FwdOut :=
  let y := DFreal.compute cfg conj spec coefs
  ⟨y, y, true⟩

/-- `MfWf.forward` with its training-dependent clone (lines 245-247). -/
def MfWf.forward (training : Bool) (cfg : MFcfg) (spec : List (List Cx))
    (ifc : List (List (List Cx)))
    (iRxx : List (List (List (List Cx)))) : FwdOut :=
  let y := MfWf.compute cfg spec ifc iRxx
  if training then ⟨y, spec, false⟩ else ⟨y, y, true⟩

/-- `MfMvdr.forward` with its training-dependent clone (lines 278-280). -/
def MfMvdr.forward (training : Bool) (cfg : MFcfg) (eps : ℚ)
    (spec : List (List Cx)) (ifc : List (List (List Cx)))
    (iRnn : List (List (List (List Cx)))) : FwdOut :=
  let y := MfMvdr.compute cfg eps spec ifc iRnn
  if training then ⟨y, spec, false⟩ else ⟨y, y, true⟩

/-! ## `psd` and Tikhonov regularization -/

/-- `psd(x, n)` (lines 110-123) on one frequency column:
`F.pad(x, (0, 0, n - 1, 0))` pads the time axis with `n - 1` leading
zeros (causal, no look-ahead), `unfold(-2, n, 1)` forms the windows, and
`torch.einsum("...n,...m->...mn", x, x.conj())` places
`window[n'] * conj(window[m])` at row `m`, column `n'` of the per-bin
matrix (row index from the conjugated factor). -/
def psd (x : List Cx) (n : ℕ) : List (List (List Cx)) :=
  let p := padZeros (n - 1) 0 x
  (List.range (p.length + 1 - n)).map (fun t =>
    let w := (p.drop t).take n
    (List.range n).map (fun m =>
      (List.range n).map (fun k => (w.getD k 0) * Cx.conj (w.getD m 0))))

/-- `_compute_mat_trace` (lines 285-301): sum of the diagonal. -/
def _compute_mat_trace {n : ℕ} (input : Fin n → Fin n → Cx) : Cx :=
  ∑ i, input i i

/-- `torch.eye(C)` in the matrix dtype. -/
def eyeM (n : ℕ) : Fin n → Fin n → Cx :=
  fun i j => if i = j then 1 else 0

/-- `_tik_reg(mat, reg, eps)` (lines 304-320):
`epsilon = trace(mat).real * reg + eps`, result `mat + epsilon * eye`. -/
def _tik_reg {n : ℕ} (mat : Fin n → Fin n → Cx) (reg eps : ℚ) :
    Fin n → Fin n → Cx :=
  fun i j =>
    mat i j + Cx.ofQ ((_compute_mat_trace mat).re * reg + eps) * eyeM n i j

/-! ## Helper lemmas -/

theorem getZ_in (x : List Cx) (i : ℤ) (h0 : 0 ≤ i) (h1 : i < x.length) :
    getZ x i = x.getD i.toNat 0 := by
  simp [getZ, h0, h1]

theorem getZ_out (x : List Cx) (i : ℤ) (h : i < 0 ∨ (x.length : ℤ) ≤ i) :
    getZ x i = 0 := by
  unfold getZ
  rcases h with h | h
  · rw [if_neg]; omega
  · rw [if_neg]; omega

theorem getD_range_map {β : Type} (c : ℕ) (g : ℕ → β) (d : β) (t : ℕ)
    (ht : t < c) : ((List.range c).map g).getD t d = g t := by
  rw [List.getD_eq_getElem?_getD, List.getElem?_map, List.getElem?_range ht]
  rfl

theorem getD_map_in {β γ : Type} (g : β → γ) (l : List β) (t : ℕ) (d : γ)
    (d' : β) (ht : t < l.length) : (l.map g).getD t d = g (l.getD t d') := by
  rw [List.getD_eq_getElem?_getD, List.getElem?_map,
    List.getElem?_eq_getElem ht, List.getD_eq_getElem?_getD,
    List.getElem?_eq_getElem ht]
  rfl

theorem padZeros_length (b a : ℕ) (x : List Cx) :
    (padZeros b a x).length = b + x.length + a := by
  simp [padZeros]
  omega

theorem padZeros_getD (b a : ℕ) (x : List Cx) (k : ℕ)
    (hk : k < b + x.length + a) :
    (padZeros b a x).getD k 0 = getZ x ((k : ℤ) - b) := by
  unfold padZeros
  by_cases h2 : k < b + x.length
  · rw [List.getD_eq_getElem?_getD,
      List.getElem?_append_left (by simp; omega)]
    by_cases h1 : k < b
    · rw [List.getElem?_append_left (by simpa using h1),
        List.getElem?_replicate, if_pos h1, getZ_out x _ (by omega)]
      rfl
    · rw [List.getElem?_append_right (by simpa using h1)]
      simp only [List.length_replicate]
      rw [List.getElem?_eq_getElem (by omega), getZ_in x _ (by omega) (by omega)]
      have h3 : ((k : ℤ) - b).toNat = k - b := by omega
      rw [h3, List.getD_eq_getElem?_getD, List.getElem?_eq_getElem (by omega)]
  · rw [List.getD_eq_getElem?_getD,
      List.getElem?_append_right (by simp; omega)]
    simp only [List.length_append, List.length_replicate]
    rw [List.getElem?_replicate, if_pos (by omega), getZ_out x _ (by omega)]
    rfl

theorem window_getD (b a fs : ℕ) (x : List Cx) (t k : ℕ) (hk : k < fs)
    (ht : t + k < b + x.length + a) :
    (((padZeros b a x).drop t).take fs).getD k 0 = getZ x ((t : ℤ) + k - b) := by
  rw [List.getD_eq_getElem?_getD, List.getElem?_take, if_pos hk,
    List.getElem?_drop, ← List.getD_eq_getElem?_getD,
    padZeros_getD b a x (t + k) ht]
  have h3 : ((t + k : ℕ) : ℤ) - (b : ℤ) = (t : ℤ) + k - b := by push_cast; ring
  rw [h3]

theorem spec_unfold_length (fs la : ℕ) (x : List Cx) (h : la < fs) :
    (spec_unfold fs la x).length = x.length := by
  unfold spec_unfold
  by_cases h1 : 1 < fs
  · rw [if_pos h1]
    simp only [List.length_map, List.length_range, padZeros_length]
    omega
  · rw [if_neg h1, List.length_map]

theorem spec_unfold_window_length (fs la : ℕ) (x : List Cx) (t : ℕ)
    (h : la < fs) (ht : t < x.length) :
    ((spec_unfold fs la x).getD t []).length = fs := by
  unfold spec_unfold
  by_cases h1 : 1 < fs
  · rw [if_pos h1]
    rw [getD_range_map _ _ _ _ (by rw [padZeros_length]; omega)]
    simp only [List.length_take, List.length_drop, padZeros_length]
    omega
  · rw [if_neg h1, getD_map_in _ _ _ _ 0 ht]
    simp only [List.length_cons, List.length_nil]
    omega

theorem spec_unfold_getD (fs la : ℕ) (x : List Cx) (t k : ℕ)
    (hla : la < fs) (ht : t < x.length) (hk : k < fs) :
    ((spec_unfold fs la x).getD t []).getD k 0 =
      getZ x ((t : ℤ) + k - ((fs : ℤ) - 1 - la)) := by
  unfold spec_unfold
  by_cases h1 : 1 < fs
  · rw [if_pos h1]
    rw [getD_range_map _ _ _ _ (by rw [padZeros_length]; omega)]
    rw [window_getD _ _ _ _ _ _ hk (by omega)]
    have h3 : (t : ℤ) + k - ((fs : ℤ) - 1 - la) =
        (t : ℤ) + k - ((fs - 1 - la : ℕ) : ℤ) := by omega
    rw [h3]
  · have hk0 : k = 0 := by omega
    rw [if_neg h1, getD_map_in _ _ _ _ 0 ht]
    have hidx : (t : ℤ) + k - ((fs : ℤ) - 1 - la) = (t : ℤ) := by omega
    rw [hidx, getZ_in x t (by omega) (by omega)]
    have ht3 : ((t : ℤ)).toNat = t := by omega
    rw [ht3, hk0, List.getD_cons_zero]

theorem binMap_length (su : List (List (List Cx)))
    (g : ℕ → ℕ → List Cx → Cx) : (binMap su g).length = su.length := by
  simp [binMap]

theorem binMap_cell (su : List (List (List Cx)))
    (g : ℕ → ℕ → List Cx → Cx) (f t : ℕ) (hf : f < su.length)
    (ht : t < (su.getD f []).length) :
    cell (binMap su g) f t = g f t ((su.getD f []).getD t []) := by
  unfold cell binMap
  rw [getD_range_map _ _ _ _ hf, getD_range_map _ _ _ _ ht]

theorem take_map_getD (spec : List (List Cx)) (u : List Cx → List (List Cx))
    (nf f : ℕ) (hf : f < nf) (hfl : f < spec.length) :
    ((spec.map u).take nf).getD f [] = u (spec.getD f []) := by
  rw [List.getD_eq_getElem?_getD, List.getElem?_take, if_pos hf,
    List.getElem?_map, List.getElem?_eq_getElem (by simpa using hfl),
    List.getD_eq_getElem?_getD, List.getElem?_eq_getElem hfl]
  rfl

theorem cell_append_left (A B : List (List Cx)) (f t : ℕ)
    (hf : f < A.length) : cell (A ++ B) f t = cell A f t := by
  unfold cell
  rw [List.getD_eq_getElem?_getD (A ++ B) f, List.getElem?_append_left hf,
    ← List.getD_eq_getElem?_getD]

theorem cell_append_drop (A spec : List (List Cx)) (nf f t : ℕ)
    (hA : A.length = nf) (hf : nf ≤ f) :
    cell (A ++ spec.drop nf) f t = cell spec f t := by
  unfold cell
  rw [List.getD_eq_getElem?_getD (A ++ spec.drop nf) f,
    List.getElem?_append_right (by omega), List.getElem?_drop]
  have h : nf + (f - A.length) = f := by omega
  rw [h, ← List.getD_eq_getElem?_getD]

theorem getD_out_default {β : Type} (l : List β) (t : ℕ) (d : β)
    (ht : l.length ≤ t) : l.getD t d = d := by
  rw [List.getD_eq_getElem?_getD, List.getElem?_eq_none (by simpa using ht)]
  rfl

theorem cell_nil (f t : ℕ) : cell [] f t = 0 := by
  unfold cell
  rw [getD_out_default ([] : List (List Cx)) f [] (by simp),
    getD_out_default ([] : List Cx) t 0 (by simp)]

theorem cell_map_conj (g : List (List Cx)) (f t : ℕ) :
    cell (g.map (fun col => col.map Cx.conj)) f t = Cx.conj (cell g f t) := by
  unfold cell
  by_cases hf : f < g.length
  · rw [getD_map_in (fun col => col.map Cx.conj) g f [] [] hf]
    by_cases ht : t < (g.getD f []).length
    · rw [getD_map_in Cx.conj (g.getD f []) t 0 0 ht]
    · rw [getD_out_default ((g.getD f []).map Cx.conj) t 0
          (by simpa using Nat.le_of_not_lt ht),
        getD_out_default (g.getD f []) t 0 (Nat.le_of_not_lt ht), Cx.conj_zero]
  · rw [getD_out_default (g.map (fun col => col.map Cx.conj)) f []
        (by simpa using Nat.le_of_not_lt hf),
      getD_out_default g f [] (Nat.le_of_not_lt hf)]
    simp

theorem cell_coefs_map_conj (coefs : List (List (List Cx))) (n f t : ℕ) :
    cell ((coefs.map (fun g => g.map (fun col => col.map Cx.conj))).getD n [])
      f t = Cx.conj (cell (coefs.getD n []) f t) := by
  by_cases hn : n < coefs.length
  · rw [getD_map_in (fun g => g.map (fun col => col.map Cx.conj)) coefs n []
        [] hn, cell_map_conj]
  · rw [getD_out_default
        (coefs.map (fun g => g.map (fun col => col.map Cx.conj))) n []
        (by simpa using Nat.le_of_not_lt hn),
      getD_out_default coefs n [] (Nat.le_of_not_lt hn)]
    rw [cell_nil, Cx.conj_zero]

theorem dot_map_divQ (a b : List Cx) (s : ℚ) :
    dot a (b.map (fun z => z.divQ s)) = (dot a b).divQ s := by
  induction a generalizing b with
  | nil => simp [dot]
  | cons x xs ih =>
    cases b with
    | nil => simp [dot]
    | cons y ys =>
      simp only [dot, List.map_cons, List.zipWith_cons_cons, List.sum_cons]
      rw [Cx.mul_divQ]
      have hys : (List.zipWith (fun u v => u * v) xs
          (ys.map (fun z => z.divQ s))).sum = (dot xs ys).divQ s := ih ys
      rw [hys, ← Cx.divQ_add]
      rfl

theorem spec_unfold_grid_eq (fs la : ℕ) (spec : List (List Cx)) :
    spec_unfold_grid fs la spec = spec.map (spec_unfold fs la) := rfl

theorem df_eq (su coefs : List (List (List Cx))) :
    df su coefs = binMap su (fun f t w =>
      ((List.range w.length).map
        (fun n => (w.getD n 0) * cell (coefs.getD n []) f t)).sum) := rfl

theorem df_length (su coefs : List (List (List Cx))) :
    (df su coefs).length = su.length := by
  rw [df_eq, binMap_length]

theorem df_real_eq (su coefs : List (List (List Cx))) :
    df_real su coefs = binMap su (fun f t w =>
      Cx.mk
        (((List.range w.length).map
            (fun n => (w.getD n 0).re * (cell (coefs.getD n []) f t).re)).sum -
         ((List.range w.length).map
            (fun n => (w.getD n 0).im * (cell (coefs.getD n []) f t).im)).sum)
        (((List.range w.length).map
            (fun n => (w.getD n 0).re * (cell (coefs.getD n []) f t).im)).sum +
         ((List.range w.length).map
            (fun n => (w.getD n 0).im * (cell (coefs.getD n []) f t).re)).sum)) :=
  rfl

theorem df_real_length (su coefs : List (List (List Cx))) :
    (df_real su coefs).length = su.length := by
  rw [df_real_eq, binMap_length]

theorem spec_f_length (fs la nf : ℕ) (spec : List (List Cx))
    (hnf : nf ≤ spec.length) :
    ((spec_unfold_grid fs la spec).take nf).length = nf := by
  simp only [List.length_take, spec_unfold_grid_eq, List.length_map]
  omega

theorem spec_f_col (fs la nf : ℕ) (spec : List (List Cx)) (f : ℕ)
    (hf : f < nf) (hfl : f < spec.length) :
    ((spec_unfold_grid fs la spec).take nf).getD f [] =
      spec_unfold fs la (spec.getD f []) := by
  rw [spec_unfold_grid_eq]
  exact take_map_getD spec _ nf f hf hfl

/-- The per-bin value of the deep-filtering output on the filtered band,
for an arbitrary (possibly pre-conjugated) coefficient stack. -/
theorem df_compute_cell (cfg : MFcfg) (spec : List (List Cx))
    (coefs2 : List (List (List Cx))) (f t : ℕ)
    (hla : cfg.lookahead < cfg.frame_size) (hf : f < cfg.num_freqs)
    (hnf : cfg.num_freqs ≤ spec.length) (ht : t < (spec.getD f []).length) :
    cell (df ((spec_unfold_grid cfg.frame_size cfg.lookahead spec).take
        cfg.num_freqs) coefs2 ++ spec.drop cfg.num_freqs) f t =
      ((List.range cfg.frame_size).map (fun (n : ℕ) =>
        getZ (spec.getD f [])
            ((t : ℤ) + n - ((cfg.frame_size : ℤ) - 1 - cfg.lookahead)) *
          cell (coefs2.getD n []) f t)).sum := by
  have hfl : f < spec.length := lt_of_lt_of_le hf hnf
  have hcol := spec_f_col cfg.frame_size cfg.lookahead cfg.num_freqs spec f hf hfl
  have hlen := spec_f_length cfg.frame_size cfg.lookahead cfg.num_freqs spec hnf
  rw [cell_append_left _ _ _ _ (by rw [df_length, hlen]; exact hf)]
  rw [df_eq, binMap_cell _ _ _ _ (by rw [hlen]; exact hf)
    (by rw [hcol, spec_unfold_length _ _ _ hla]; exact ht)]
  rw [hcol, spec_unfold_window_length _ _ _ _ hla ht]
  apply congrArg List.sum
  apply List.map_congr_left
  intro n hn
  rw [spec_unfold_getD _ _ _ _ _ hla ht (List.mem_range.mp hn)]

/-! ## Claim theorems -/

/-- C1 (code bug): `as_windowed` is specified (by the claim and by its own
docstring, line 19) to return `floor((len - L) / S) + 1` windows, but line
25 computes `int(len - L + step / step)` = `len - L + 1` windows for every
step, because `step / step` is the float `1.0`.  For a length-10 input
with L = 3, S = 2 the code yields 8 windows where the documented count is
`(10 - 3) / 2 + 1 = 4`. -/
theorem as_windowed_step_ignored :
    (as_windowed (List.range 10) 3 2).length = 8 ∧
    (10 - 3) / 2 + 1 = 4 ∧ (8 : ℕ) ≠ 4 := by decide

/-- C3 counterexample: the claim says construction fails fast whenever
`lookahead ≥ frame_size`, but `MultiFrameModule.__init__` contains no such
check — constructing `DF`, `MfWf` or `MfMvdr` with `frame_size = 2`,
`lookahead = 5` succeeds. -/
theorem construction_lookahead_unvalidated :
    (DF.init 10 2 5 false).isSome = true ∧ 2 ≤ 5 ∧
    (MfWf.init 10 2 5).isSome = true ∧
    (MfMvdr.init 10 2 5 (1 / 100)).isSome = true := by
  refine ⟨rfl, by omega, rfl, rfl⟩

/-- C3 (amended): the only construction-time validation in the module is
the `CRM` assert `frame_size == 1 and lookahead == 0`; every other
constructor succeeds on every input — in particular nothing rejects
`lookahead ≥ frame_size`, and `num_freqs` cannot be compared against the
frequency-bin count at construction time (the bin count is a property of
later inputs). -/
theorem construction_validation_only_crm (nf fs la : ℕ) (conj : Bool)
    (eps : ℚ) :
    ((CRM.init nf fs la).isSome = true ↔ (fs = 1 ∧ la = 0)) ∧
    (DF.init nf fs la conj).isSome = true ∧
    (DFreal.init nf fs la conj).isSome = true ∧
    (MfWf.init nf fs la).isSome = true ∧
    (MfMvdr.init nf fs la eps).isSome = true := by
  refine ⟨?_, rfl, rfl, rfl, rfl⟩
  by_cases h : fs = 1 ∧ la = 0
  · simp [CRM.init, MultiFrameModule.init, h]
  · simp [CRM.init, MultiFrameModule.init, h]

/-- C5: `_tik_reg(M, reg, eps)` equals `M + shift * I` with
`shift = real(trace(M)) * reg + eps` — the off-diagonal entries are
untouched — and on the all-zero matrix the result is exactly `eps * I`
with zero off-diagonal entries. -/
theorem tik_reg_spec {n : ℕ} (mat : Fin n → Fin n → Cx) (reg eps : ℚ) :
    (∀ i j, _tik_reg mat reg eps i j =
      mat i j +
        (if i = j then Cx.ofQ ((_compute_mat_trace mat).re * reg + eps)
         else 0)) ∧
    (∀ i j : Fin n, _tik_reg (fun _ _ => 0) reg eps i j =
      if i = j then Cx.ofQ eps else 0) := by
  constructor
  · intro i j
    unfold _tik_reg eyeM
    by_cases h : i = j
    · rw [if_pos h, if_pos h, mul_one]
    · rw [if_neg h, if_neg h, mul_zero]
  · intro i j
    unfold _tik_reg eyeM _compute_mat_trace
    simp only [Finset.sum_const_zero]
    by_cases h : i = j
    · rw [if_pos h, if_pos h, mul_one]
      ext <;> simp
    · rw [if_neg h, if_neg h, mul_zero, add_zero]

/-- C9 counterexample: in eval mode (`self.training = False`) `DF.forward`
writes the filtered values into the caller's spectrogram tensor and
returns that same tensor, so state IS carried across calls through the
caller's tensor: calling the filter twice in a row on the same tensor
object (num_freqs 1, frame_size 1, coefficient 2, spectrogram value 1)
returns `2` the first time and `4` the second time. -/
theorem forward_eval_mode_stateful :
    (DF.forward false ⟨1, 1, 0, false⟩ false [[⟨1, 0⟩]] [[[⟨2, 0⟩]]]).ret ≠
      (DF.forward false ⟨1, 1, 0, false⟩ false
        ((DF.forward false ⟨1, 1, 0, false⟩ false [[⟨1, 0⟩]]
          [[[⟨2, 0⟩]]]).arg)
        [[[⟨2, 0⟩]]]).ret := by with_unfolding_all decide

/-- C9 (amended): every `forward` is a pure function of the tensor VALUES
and the immutable configuration, and in training mode (where the source
clones before writing) no state is carried across calls: the caller's
tensor is unchanged, so a repeated call on the same tensor returns an
identical output.  (In eval mode the write is in-place, so a second call
on the same tensor sees — and filters — the first call's output; see the
counterexample.) -/
theorem forward_training_mode_stateless (cfg : MFcfg) (conj : Bool)
    (spec : List (List Cx)) (coefs ifc : List (List (List Cx)))
    (iRxx iRnn : List (List (List (List Cx)))) (eps : ℚ) :
    ((DF.forward true cfg conj spec coefs).arg = spec ∧
      (DF.forward true cfg conj
          ((DF.forward true cfg conj spec coefs).arg) coefs).ret =
        (DF.forward true cfg conj spec coefs).ret) ∧
    ((MfWf.forward true cfg spec ifc iRxx).arg = spec ∧
      (MfWf.forward true cfg
          ((MfWf.forward true cfg spec ifc iRxx).arg) ifc iRxx).ret =
        (MfWf.forward true cfg spec ifc iRxx).ret) ∧
    ((MfMvdr.forward true cfg eps spec ifc iRnn).arg = spec ∧
      (MfMvdr.forward true cfg eps
          ((MfMvdr.forward true cfg eps spec ifc iRnn).arg) ifc iRnn).ret =
        (MfMvdr.forward true cfg eps spec ifc iRnn).ret) :=
  ⟨⟨rfl, rfl⟩, ⟨rfl, rfl⟩, ⟨rfl, rfl⟩⟩

/-- C10: `DFreal.forward` has no `clone` on any path: on every call —
training mode included — the caller's tensor ends up holding the filtered
values (its first `num_freqs` bins overwritten, per `DFreal.compute`) and
the returned tensor is the caller's tensor; whereas `DF.forward`,
`MfWf.forward` and `MfMvdr.forward` in training mode clone first, leaving
the caller's tensor untouched and returning a fresh tensor. -/
theorem dfreal_inplace_others_clone (training : Bool) (cfg : MFcfg)
    (conj : Bool) (spec : List (List Cx)) (coefs ifc : List (List (List Cx)))
    (iRxx iRnn : List (List (List (List Cx)))) (eps : ℚ) :
    (DFreal.forward training cfg conj spec coefs).arg =
        DFreal.compute cfg conj spec coefs ∧
    (DFreal.forward training cfg conj spec coefs).ret =
        DFreal.compute cfg conj spec coefs ∧
    (DFreal.forward training cfg conj spec coefs).retAliasesArg = true ∧
    (DF.forward true cfg conj spec coefs).arg = spec ∧
    (DF.forward true cfg conj spec coefs).retAliasesArg = false ∧
    (MfWf.forward true cfg spec ifc iRxx).arg = spec ∧
    (MfWf.forward true cfg spec ifc iRxx).retAliasesArg = false ∧
    (MfMvdr.forward true cfg eps spec ifc iRnn).arg = spec ∧
    (MfMvdr.forward true cfg eps spec ifc iRnn).retAliasesArg = false :=
  ⟨rfl, rfl, rfl, rfl, rfl, rfl, rfl, rfl, rfl⟩

/-- C4: for `0 ≤ lookahead < frame_size`, `spec_unfold` preserves the time
length, its window at output time `t` holds at frame offset `n` the source
element at time `t + n - (frame_size - 1 - lookahead)` — i.e. the window
covers source times `[t - (frame_size-1-lookahead), t + lookahead]`, with
zeros past the sequence boundaries — and for `frame_size ≤ 1` the result
is the input with an appended unit-length frame axis. -/
theorem spec_unfold_causal (frame_size lookahead : ℕ) (x : List Cx)
    (t n : ℕ) (hla : lookahead < frame_size) (ht : t < x.length)
    (hn : n < frame_size) :
    (spec_unfold frame_size lookahead x).length = x.length ∧
    ((spec_unfold frame_size lookahead x).getD t []).getD n 0 =
      getZ x ((t : ℤ) + n - ((frame_size : ℤ) - 1 - lookahead)) ∧
    (∀ y : List Cx, frame_size ≤ 1 →
      spec_unfold frame_size lookahead y = y.map (fun v => [v])) := by
  refine ⟨spec_unfold_length _ _ _ hla,
    spec_unfold_getD _ _ _ _ _ hla ht hn, ?_⟩
  intro y hfs
  unfold spec_unfold
  rw [if_neg (by omega)]

/-- Witness for C4 at frame_size 3, lookahead 1 on a length-5 column,
window t = 0, offset n = 0: the hypotheses hold and the leading window
entry is the zero padding (`getZ` at index `-1`). -/
theorem spec_unfold_causal_witness :
    ((1 : ℕ) < 3 ∧
      (0 : ℕ) < ([⟨1, 0⟩, ⟨2, 0⟩, ⟨3, 0⟩, ⟨4, 0⟩, ⟨5, 0⟩] : List Cx).length ∧
      (0 : ℕ) < 3) ∧
    ((spec_unfold 3 1 [⟨1, 0⟩, ⟨2, 0⟩, ⟨3, 0⟩, ⟨4, 0⟩, ⟨5, 0⟩]).length =
        ([⟨1, 0⟩, ⟨2, 0⟩, ⟨3, 0⟩, ⟨4, 0⟩, ⟨5, 0⟩] : List Cx).length ∧
      ((spec_unfold 3 1 [⟨1, 0⟩, ⟨2, 0⟩, ⟨3, 0⟩, ⟨4, 0⟩,
          ⟨5, 0⟩]).getD 0 []).getD 0 0 =
        getZ [⟨1, 0⟩, ⟨2, 0⟩, ⟨3, 0⟩, ⟨4, 0⟩, ⟨5, 0⟩]
          ((0 : ℤ) + 0 - ((3 : ℤ) - 1 - 1)) ∧
      (∀ y : List Cx, 3 ≤ 1 → spec_unfold 3 1 y = y.map (fun v => [v]))) :=
  ⟨by decide,
    spec_unfold_causal 3 1 [⟨1, 0⟩, ⟨2, 0⟩, ⟨3, 0⟩, ⟨4, 0⟩, ⟨5, 0⟩] 0 0
      (by decide) (by decide) (by decide)⟩

theorem Cx.sub_re (a b : Cx) : (a - b).re = a.re - b.re := by
  rw [sub_eq_add_neg, Cx.add_re, Cx.neg_re, ← sub_eq_add_neg]

theorem Cx.sub_im (a b : Cx) : (a - b).im = a.im - b.im := by
  rw [sub_eq_add_neg, Cx.add_im, Cx.neg_im, ← sub_eq_add_neg]

/-- C7: on the filtered band, the complex deep-filtering output bin equals
the multiply-accumulate over the frame axis of the unfolded window with
the per-bin coefficient taps, the taps being conjugated exactly when the
construction-time `conj` flag is set. -/
theorem df_forward_taps (cfg : MFcfg) (conj : Bool) (spec : List (List Cx))
    (coefs : List (List (List Cx))) (f t : ℕ)
    (hla : cfg.lookahead < cfg.frame_size) (hf : f < cfg.num_freqs)
    (hnf : cfg.num_freqs ≤ spec.length) (ht : t < (spec.getD f []).length) :
    cell (DF.compute cfg conj spec coefs) f t =
      ((List.range cfg.frame_size).map (fun (n : ℕ) =>
        getZ (spec.getD f [])
            ((t : ℤ) + n - ((cfg.frame_size : ℤ) - 1 - cfg.lookahead)) *
          (if conj then Cx.conj (cell (coefs.getD n []) f t)
           else cell (coefs.getD n []) f t))).sum := by
  cases conj with
  | false =>
    have e : DF.compute cfg false spec coefs =
        df ((spec_unfold_grid cfg.frame_size cfg.lookahead spec).take
          cfg.num_freqs) coefs ++ spec.drop cfg.num_freqs := rfl
    rw [e, df_compute_cell cfg spec coefs f t hla hf hnf ht]
    apply congrArg List.sum
    apply List.map_congr_left
    intro n _
    rfl
  | true =>
    have e : DF.compute cfg true spec coefs =
        df ((spec_unfold_grid cfg.frame_size cfg.lookahead spec).take
          cfg.num_freqs)
          (coefs.map (fun g => g.map (fun col => col.map Cx.conj))) ++
          spec.drop cfg.num_freqs := rfl
    rw [e, df_compute_cell cfg spec _ f t hla hf hnf ht]
    apply congrArg List.sum
    apply List.map_congr_left
    intro n _
    rw [cell_coefs_map_conj]
    rfl

/-- Witness for C7: num_freqs 1, frame_size 2, lookahead 0, `conj = true`,
one frequency bin with two time frames, evaluated at (f, t) = (0, 1). -/
theorem df_forward_taps_witness :
    cell (DF.compute ⟨1, 2, 0, false⟩ true [[⟨1, 0⟩, ⟨0, 1⟩]]
        [[[⟨1, 1⟩, ⟨2, 0⟩]], [[⟨0, 3⟩, ⟨1, 0⟩]]]) 0 1 =
      ((List.range (2 : ℕ)).map (fun (n : ℕ) =>
        getZ (([[⟨1, 0⟩, ⟨0, 1⟩]] : List (List Cx)).getD 0 [])
            ((1 : ℤ) + n - ((2 : ℤ) - 1 - (0 : ℕ))) *
          (if true then
            Cx.conj (cell (([[[⟨1, 1⟩, ⟨2, 0⟩]],
                [[⟨0, 3⟩, ⟨1, 0⟩]]] : List (List (List Cx))).getD n []) 0 1)
           else cell (([[[⟨1, 1⟩, ⟨2, 0⟩]],
              [[⟨0, 3⟩, ⟨1, 0⟩]]] : List (List (List Cx))).getD n [])
             0 1))).sum :=
  df_forward_taps ⟨1, 2, 0, false⟩ true [[⟨1, 0⟩, ⟨0, 1⟩]]
    [[[⟨1, 1⟩, ⟨2, 0⟩]], [[⟨0, 3⟩, ⟨1, 0⟩]]] 0 1
    (by decide) (by decide) (by decide) (by decide)

/-- C2 counterexample: `CRM.forward_impl` multiplies EVERY frequency bin
by its coefficient — nothing narrows to `num_freqs` and nothing copies the
upper band through.  With `num_freqs = 1` (`CRM.init 1` succeeds), an
input spectrogram whose bin 1 holds `1` and a mask whose bin 1 holds `2`,
the output at bin index `1 ≥ num_freqs` is `2`, not the input value `1`. -/
theorem crm_not_passthrough :
    (CRM.init 1).isSome = true ∧
    cell (CRM.forward_impl [[[⟨1, 0⟩]], [[⟨1, 0⟩]]]
        [[⟨2, 0⟩], [⟨2, 0⟩]]) 1 0 ≠
      cell (squeezeLast [[[⟨1, 0⟩]], [[⟨1, 0⟩]]]) 1 0 := by
  constructor
  · rfl
  · with_unfolding_all decide

/-- C2 (amended): for the four variants that write back into the
spectrogram — `DF`, `DFreal`, `MfWf`, `MfMvdr` — every output bin at a
frequency index `≥ num_freqs` is exactly the input bin (the write
`spec[..., :num_freqs, :] = ...` touches only the low band).  `CRM` does
not satisfy this (see the counterexample). -/
theorem passthrough_above_num_freqs (cfg : MFcfg) (conj : Bool)
    (spec : List (List Cx)) (coefs ifc : List (List (List Cx)))
    (iRxx iRnn : List (List (List (List Cx)))) (eps : ℚ) (f t : ℕ)
    (hnf : cfg.num_freqs ≤ spec.length) (hf : cfg.num_freqs ≤ f) :
    cell (DF.compute cfg conj spec coefs) f t = cell spec f t ∧
    cell (DFreal.compute cfg conj spec coefs) f t = cell spec f t ∧
    cell (MfWf.compute cfg spec ifc iRxx) f t = cell spec f t ∧
    cell (MfMvdr.compute cfg eps spec ifc iRnn) f t = cell spec f t := by
  refine ⟨?_, ?_, ?_, ?_⟩
  · have e : DF.compute cfg conj spec coefs =
        df ((spec_unfold_grid cfg.frame_size cfg.lookahead spec).take
          cfg.num_freqs)
          (if conj then
            coefs.map (fun g => g.map (fun col => col.map Cx.conj))
           else coefs) ++ spec.drop cfg.num_freqs := rfl
    rw [e]
    exact cell_append_drop _ _ _ _ _
      (by rw [df_length]; exact spec_f_length _ _ _ _ hnf) hf
  · have e : DFreal.compute cfg conj spec coefs =
        df_real ((spec_unfold_grid cfg.frame_size cfg.lookahead spec).take
          cfg.num_freqs) (if conj then coefs else coefs) ++
          spec.drop cfg.num_freqs := rfl
    rw [e]
    exact cell_append_drop _ _ _ _ _
      (by rw [df_real_length]; exact spec_f_length _ _ _ _ hnf) hf
  · have e : MfWf.compute cfg spec ifc iRxx =
        binMap ((spec_unfold_grid cfg.frame_size cfg.lookahead spec).take
          cfg.num_freqs) (fun f t w =>
            apply_coefs w (matVec ((iRxx.getD f []).getD t [])
              ((ifc.getD f []).getD t []))) ++ spec.drop cfg.num_freqs := rfl
    rw [e]
    exact cell_append_drop _ _ _ _ _
      (by rw [binMap_length]; exact spec_f_length _ _ _ _ hnf) hf
  · have e : MfMvdr.compute cfg eps spec ifc iRnn =
        binMap ((spec_unfold_grid cfg.frame_size cfg.lookahead spec).take
          cfg.num_freqs) (fun f t w =>
            MfMvdr.forwardBin eps w ((ifc.getD f []).getD t [])
              ((iRnn.getD f []).getD t [])) ++ spec.drop cfg.num_freqs := rfl
    rw [e]
    exact cell_append_drop _ _ _ _ _
      (by rw [binMap_length]; exact spec_f_length _ _ _ _ hnf) hf

/-- Witness for C2 (amended) with num_freqs 1, a 2-bin spectrogram and
empty coefficient/statistics tensors, at bin f = 1 ≥ num_freqs. -/
theorem passthrough_above_num_freqs_witness :
    cell (DF.compute ⟨1, 1, 0, false⟩ false [[⟨1, 0⟩], [⟨5, 6⟩]] []) 1 0 =
        cell [[⟨1, 0⟩], [⟨5, 6⟩]] 1 0 ∧
    cell (DFreal.compute ⟨1, 1, 0, false⟩ false [[⟨1, 0⟩], [⟨5, 6⟩]] []) 1 0 =
        cell [[⟨1, 0⟩], [⟨5, 6⟩]] 1 0 ∧
    cell (MfWf.compute ⟨1, 1, 0, false⟩ [[⟨1, 0⟩], [⟨5, 6⟩]] [] []) 1 0 =
        cell [[⟨1, 0⟩], [⟨5, 6⟩]] 1 0 ∧
    cell (MfMvdr.compute ⟨1, 1, 0, false⟩ 0 [[⟨1, 0⟩], [⟨5, 6⟩]] [] []) 1 0 =
        cell [[⟨1, 0⟩], [⟨5, 6⟩]] 1 0 :=
  passthrough_above_num_freqs ⟨1, 1, 0, false⟩ false [[⟨1, 0⟩], [⟨5, 6⟩]]
    [] [] [] [] 0 1 0 (by decide) (by decide)

/-- C8 counterexample: the claim says the per-bin matrix entry (i, j)
equals `frame[i] * conj(frame[j])`, but the einsum
`"...n,...m->...mn"` places `frame[j] * conj(frame[i])` there (the row
index comes from the CONJUGATED factor).  For `x = [1, i]`, `n = 2`, the
frame at `t = 1` is exactly `[x[0], x[1]] = [1, i]`; the code's entry
(0, 1) is `i * conj(1) = i`, whereas the claim's formula gives
`1 * conj(i) = -i`. -/
theorem psd_entry_transposed :
    (((psd [⟨1, 0⟩, ⟨0, 1⟩] 2).getD 1 []).getD 0 []).getD 1 0 = ⟨0, 1⟩ ∧
    (((psd [⟨1, 0⟩, ⟨0, 1⟩] 2).getD 1 []).getD 0 []).getD 1 0 ≠
      (([⟨1, 0⟩, ⟨0, 1⟩] : List Cx).getD 0 0) *
        Cx.conj (([⟨1, 0⟩, ⟨0, 1⟩] : List Cx).getD 1 0) := by
  with_unfolding_all decide

/-- C8 (amended): `psd(x, n)` windows causally (`n - 1` leading zero
frames, no look-ahead, one matrix per source time step) and its per-bin
matrix entry (i, j) is `frame[j] * conj(frame[i])` — the conjugate
transpose of the matrix the claim describes — where `frame[k]` is the
source element at time `t + k - (n - 1)` and zero outside the sequence. -/
theorem psd_causal_conj (x : List Cx) (n t i j : ℕ)
    (hn : 0 < n) (ht : t < x.length) (hi : i < n) (hj : j < n) :
    (psd x n).length = x.length ∧
    (((psd x n).getD t []).getD i []).getD j 0 =
      getZ x ((t : ℤ) + j - ((n : ℤ) - 1)) *
        Cx.conj (getZ x ((t : ℤ) + i - ((n : ℤ) - 1))) := by
  constructor
  · unfold psd
    simp only [List.length_map, List.length_range, padZeros_length]
    omega
  · unfold psd
    rw [getD_range_map _ _ _ _ (by simp only [padZeros_length]; omega)]
    rw [getD_range_map _ _ _ _ hi, getD_range_map _ _ _ _ hj]
    rw [window_getD _ _ _ _ _ _ hj (by omega),
      window_getD _ _ _ _ _ _ hi (by omega)]
    have h3 : (t : ℤ) + (j : ℤ) - ((n - 1 : ℕ) : ℤ) =
        (t : ℤ) + j - ((n : ℤ) - 1) := by omega
    have h4 : (t : ℤ) + (i : ℤ) - ((n - 1 : ℕ) : ℤ) =
        (t : ℤ) + i - ((n : ℤ) - 1) := by omega
    rw [h3, h4]

/-- Witness for C8 (amended) at `x = [1, i]`, `n = 2`, `t = 1`,
entry (0, 1). -/
theorem psd_causal_conj_witness :
    (psd [⟨1, 0⟩, ⟨0, 1⟩] 2).length =
        ([⟨1, 0⟩, ⟨0, 1⟩] : List Cx).length ∧
    (((psd [⟨1, 0⟩, ⟨0, 1⟩] 2).getD 1 []).getD 0 []).getD 1 0 =
      getZ [⟨1, 0⟩, ⟨0, 1⟩] ((1 : ℤ) + 1 - ((2 : ℤ) - 1)) *
        Cx.conj (getZ [⟨1, 0⟩, ⟨0, 1⟩] ((1 : ℤ) + 0 - ((2 : ℤ) - 1))) :=
  psd_causal_conj [⟨1, 0⟩, ⟨0, 1⟩] 2 1 0 1 (by decide) (by decide)
    (by decide) (by decide)

/-- C6: the MVDR forward computes, per bin,
`numerator = iRnn · ifc`, `denumerator = conj(ifc) · numerator`,
`w = numerator / (Re(denumerator) + eps)` and output
`Σ_n window[n] * w[n]` (first two conjuncts: the grid-level output on the
filtered band is exactly this per-bin computation on the unfolded window,
and the per-bin computation is the claimed formula).  Distortionless
property: whenever `d = conj(ifc) · (iRnn · ifc)` is real and positive
(as for any Hermitian positive-definite `iRnn`) and `eps > 0`, the weight
satisfies `conj(ifc) · w - 1 = -eps / (Re(d) + eps)` exactly, hence
`|conj(ifc) · w - 1| = eps / (Re(d) + eps) ≤ eps / Re(d)` — small
relative to `eps` whenever `Re(d)` is not small. -/
theorem mvdr_distortionless (cfg : MFcfg) (eps : ℚ) (spec : List (List Cx))
    (ifc : List (List (List Cx))) (iRnn : List (List (List (List Cx))))
    (f t : ℕ) (w v : List Cx) (M : List (List Cx))
    (hla : cfg.lookahead < cfg.frame_size) (hf : f < cfg.num_freqs)
    (hnf : cfg.num_freqs ≤ spec.length) (ht : t < (spec.getD f []).length)
    (heps : 0 < eps)
    (him : (dot (v.map Cx.conj) (matVec M v)).im = 0)
    (hpos : 0 < (dot (v.map Cx.conj) (matVec M v)).re) :
    cell (MfMvdr.compute cfg eps spec ifc iRnn) f t =
      MfMvdr.forwardBin eps
        ((spec_unfold cfg.frame_size cfg.lookahead (spec.getD f [])).getD t [])
        ((ifc.getD f []).getD t []) ((iRnn.getD f []).getD t []) ∧
    MfMvdr.forwardBin eps w v M =
      dot w ((matVec M v).map (fun z =>
        z.divQ ((dot (v.map Cx.conj) (matVec M v)).re + eps))) ∧
    dot (v.map Cx.conj) ((matVec M v).map (fun z =>
        z.divQ ((dot (v.map Cx.conj) (matVec M v)).re + eps))) - 1 =
      Cx.mk (-(eps / ((dot (v.map Cx.conj) (matVec M v)).re + eps))) 0 ∧
    eps / ((dot (v.map Cx.conj) (matVec M v)).re + eps) ≤
      eps / (dot (v.map Cx.conj) (matVec M v)).re := by
  refine ⟨?_, rfl, ?_, ?_⟩
  · have e : MfMvdr.compute cfg eps spec ifc iRnn =
        binMap ((spec_unfold_grid cfg.frame_size cfg.lookahead spec).take
          cfg.num_freqs) (fun f t w =>
            MfMvdr.forwardBin eps w ((ifc.getD f []).getD t [])
              ((iRnn.getD f []).getD t [])) ++ spec.drop cfg.num_freqs := rfl
    have hfl : f < spec.length := lt_of_lt_of_le hf hnf
    have hcol := spec_f_col cfg.frame_size cfg.lookahead cfg.num_freqs spec
      f hf hfl
    have hlen := spec_f_length cfg.frame_size cfg.lookahead cfg.num_freqs
      spec hnf
    rw [e, cell_append_left _ _ _ _ (by rw [binMap_length, hlen]; exact hf),
      binMap_cell _ _ _ _ (by rw [hlen]; exact hf)
        (by rw [hcol, spec_unfold_length _ _ _ hla]; exact ht),
      hcol]
  · rw [dot_map_divQ]
    have hs : (dot (v.map Cx.conj) (matVec M v)).re + eps ≠ 0 :=
      ne_of_gt (by linarith)
    ext
    · rw [Cx.sub_re, Cx.divQ_re, Cx.one_re, div_sub_one hs]
      have h5 : (dot (v.map Cx.conj) (matVec M v)).re -
          ((dot (v.map Cx.conj) (matVec M v)).re + eps) = -eps := by ring
      rw [h5, neg_div]
    · rw [Cx.sub_im, Cx.divQ_im, Cx.one_im, him]
      simp
  · exact div_le_div_of_nonneg_left (le_of_lt heps) hpos (by linarith)

/-- Witness for C6: one frequency bin, one time step, frame_size 1,
`ifc = [1]`, `iRnn = [[2]]`, `eps = 1/2`; the quadratic form `d` equals
`2` (real and positive), the weight is `[4/5]`, and the distortionless
error is exactly `-1/5` with `1/5 ≤ (1/2)/2`. -/
theorem mvdr_distortionless_witness :
    cell (MfMvdr.compute ⟨1, 1, 0, false⟩ (1 / 2) [[⟨1, 0⟩]] [[[⟨1, 0⟩]]]
        [[[[⟨2, 0⟩]]]]) 0 0 =
      MfMvdr.forwardBin (1 / 2)
        ((spec_unfold 1 0 (([[⟨1, 0⟩]] : List (List Cx)).getD 0 [])).getD 0 [])
        ((([[[⟨1, 0⟩]]] : List (List (List Cx))).getD 0 []).getD 0 [])
        ((([[[[⟨2, 0⟩]]]] :
          List (List (List (List Cx)))).getD 0 []).getD 0 []) ∧
    MfMvdr.forwardBin (1 / 2) [⟨1, 0⟩] [⟨1, 0⟩] [[⟨2, 0⟩]] =
      dot [⟨1, 0⟩] ((matVec [[⟨2, 0⟩]] [⟨1, 0⟩]).map (fun z =>
        z.divQ ((dot (([⟨1, 0⟩] : List Cx).map Cx.conj)
          (matVec [[⟨2, 0⟩]] [⟨1, 0⟩])).re + 1 / 2))) ∧
    dot (([⟨1, 0⟩] : List Cx).map Cx.conj)
        ((matVec [[⟨2, 0⟩]] [⟨1, 0⟩]).map (fun z =>
          z.divQ ((dot (([⟨1, 0⟩] : List Cx).map Cx.conj)
            (matVec [[⟨2, 0⟩]] [⟨1, 0⟩])).re + 1 / 2))) - 1 =
      Cx.mk (-(1 / 2 / ((dot (([⟨1, 0⟩] : List Cx).map Cx.conj)
        (matVec [[⟨2, 0⟩]] [⟨1, 0⟩])).re + 1 / 2))) 0 ∧
    1 / 2 / ((dot (([⟨1, 0⟩] : List Cx).map Cx.conj)
        (matVec [[⟨2, 0⟩]] [⟨1, 0⟩])).re + 1 / 2) ≤
      1 / 2 / (dot (([⟨1, 0⟩] : List Cx).map Cx.conj)
        (matVec [[⟨2, 0⟩]] [⟨1, 0⟩])).re :=
  mvdr_distortionless ⟨1, 1, 0, false⟩ (1 / 2) [[⟨1, 0⟩]] [[[⟨1, 0⟩]]]
    [[[[⟨2, 0⟩]]]] 0 0 [⟨1, 0⟩] [⟨1, 0⟩] [[⟨2, 0⟩]]
    (by decide) (by decide) (by decide) (by decide)
    (by with_unfolding_all decide) (by with_unfolding_all decide)
    (by with_unfolding_all decide)
